import Mathlib

set_option maxRecDepth 8000

/-!
Verification of the spectrophotometer binary decoder (`sp_trans.py`).

The core decode pipeline of `process_spectro_file` is embedded shallowly:
bytes are `Nat` (reduced mod 256 where decoded), IEEE-754 binary32 values
are decoded exactly into an algebraic type `F32` whose finite values are
exact rationals, Python `bytes.find` and slicing (including negative
indices) are modelled faithfully, and the `struct.unpack` calls inside the
`try/except` block are modelled as `Option`-returning reads where `none`
triggers the same fallback the `except` clause does.  Floating-point
arithmetic on the wavelength axis is modelled as in IEEE binary64: every
operation computes the exact rational result and then rounds it to 53
significant bits, round-to-nearest, ties-to-even (`fl`), with the special
values (`inf`, `-inf`, `nan`) propagated by the usual IEEE rules; the
exponent range is unbounded, as the overflow and subnormal thresholds of
binary64 are outside the range of values this pipeline can produce from
binary32 inputs.  The file I/O and CSV formatting of the script are
outside the modelled core.
-/

/-- An IEEE-754 binary32 value, decoded exactly: finite values are exact
rationals; the special values are explicit constructors. -/
inductive F32 where
  | finite (q : ℚ)
  | inf
  | negInf
  | nan
deriving DecidableEq

/-- The exact rational `±m * 2^e`, built with `Rat.divInt` so that it
evaluates by kernel reduction. -/
def dyadic (s : Bool) (m : ℕ) (e : ℤ) : ℚ :=
  let mi : ℤ := if s then -(m : ℤ) else (m : ℤ)
  if e < 0 then Rat.divInt mi (2 ^ (-e).toNat) else Rat.divInt (mi * 2 ^ e.toNat) 1

/-- Decode four bytes, most-significant byte first, as an IEEE-754 binary32
value (sign / 8-bit exponent / 23-bit fraction), exactly. -/
def decodeF32 (b0 b1 b2 b3 : Nat) : F32 :=
  let bits := (b0 % 256) * 16777216 + (b1 % 256) * 65536 + (b2 % 256) * 256 + b3 % 256
  let sign := bits / 2147483648
  let expo := (bits / 8388608) % 256
  let frac := bits % 8388608
  if expo = 255 then
    if frac = 0 then (if sign = 1 then F32.negInf else F32.inf) else F32.nan
  else if expo = 0 then F32.finite (dyadic (sign = 1) frac (-149))
  else F32.finite (dyadic (sign = 1) (8388608 + frac) ((expo : ℤ) - 150))

/-- IEEE equality on decoded values: `nan` is equal to nothing (itself
included); `-0.0` needs no special case because it decodes to the rational
`0`. -/
def ieeeEq : F32 → F32 → Bool
  | F32.nan, _ => false
  | _, F32.nan => false
  | F32.finite a, F32.finite b => decide (a = b)
  | F32.inf, F32.inf => true
  | F32.negInf, F32.negInf => true
  | _, _ => false

/-- IEEE strict order on decoded values: any comparison with `nan` is
false. -/
def ieeeLt : F32 → F32 → Bool
  | F32.nan, _ => false
  | _, F32.nan => false
  | F32.negInf, F32.negInf => false
  | F32.negInf, _ => true
  | _, F32.negInf => false
  | F32.inf, _ => false
  | F32.finite _, F32.inf => true
  | F32.finite a, F32.finite b => decide (a < b)

/-- The plausibility score of `score_float_array` in the source: count the
values `x` with `x != inf and x != -inf and not (x != x)` and
`-1000 < x < 1000`, all comparisons being IEEE comparisons. -/
def score_float_array (arr : List F32) : Nat :=
  arr.countP (fun x =>
    !ieeeEq x F32.inf && !ieeeEq x F32.negInf && ieeeEq x x &&
      ieeeLt (F32.finite (-1000)) x && ieeeLt x (F32.finite 1000))

/-- The predicate of the specification: a decoded value counts when it is
finite, not NaN, and lies strictly between `-1000` and `1000`. -/
def specValid : F32 → Bool
  | F32.finite q => decide (-1000 < q) && decide (q < 1000)
  | _ => false

/-- The score the specification describes: the number of values of the
array satisfying `specValid`. -/
def specScore (arr : List F32) : Nat := (arr.filter specValid).length

/-- Decode a byte list as consecutive big-endian binary32 groups
(`struct.unpack` with format `>f...f`); a trailing group of fewer than four
bytes is dropped (it cannot occur on the lengths the detector admits). -/
def decodeBEList : List Nat → List F32
  | b0 :: b1 :: b2 :: b3 :: rest => decodeF32 b0 b1 b2 b3 :: decodeBEList rest
  | _ => []

/-- Decode a byte list as consecutive little-endian binary32 groups
(`struct.unpack` with format `<f...f`). -/
def decodeLEList : List Nat → List F32
  | b0 :: b1 :: b2 :: b3 :: rest => decodeF32 b3 b2 b1 b0 :: decodeLEList rest
  | _ => []

/-- Decode a byte list as consecutive unsigned 16-bit little-endian
integers (`struct.unpack` with format `<H...H`). -/
def decodeU16List : List Nat → List Nat
  | b0 :: b1 :: rest => (b0 % 256 + 256 * (b1 % 256)) :: decodeU16List rest
  | _ => []

/-- Does the byte pattern `pat` occur in `c` starting exactly at index `i`
(entirely in bounds)? -/
def matchAt (c pat : List Nat) (i : Nat) : Bool :=
  decide ((c.drop i).take pat.length = pat)

/-- Python `bytes.find(pat, s)`: the least index `i ≥ s` at which `pat`
occurs in bounds, `none` when there is none (`-1` in Python). -/
def findFrom (c pat : List Nat) (s : Nat) : Option Nat :=
  ((List.range (c.length + 1)).filter (fun i => decide (s ≤ i) && matchAt c pat i)).head?

/-- Whether the byte pattern `pat` occurs anywhere in `c`. -/
def containsPat (c pat : List Nat) : Bool :=
  (List.range (c.length + 1)).any (fun i => matchAt c pat i)

/-- The bytes of the literal `".WAV"`. -/
def wavMarker : List Nat := [46, 87, 65, 86]

/-- The 8-byte end-of-header pattern: `(0.0, 3.0)` as big-endian binary32,
bytes `00 00 00 00 40 40 00 00`. -/
def endPattern : List Nat := [0, 0, 0, 0, 64, 64, 0, 0]

/-- Step 1 of the source: the provisional header boundary.  `0` unless
`".WAV"` occurs and a null byte occurs at or after it, in which case it is
one past that null byte. -/
def provisional_end (c : List Nat) : Nat :=
  match findFrom c wavMarker 0 with
  | none => 0
  | some idx =>
    match findFrom c [0] idx with
    | none => 0
    | some nullPos => nullPos + 1

/-- Step 2 of the source: `pat_idx`, the position of the end-of-header
pattern searched from the provisional boundary. -/
def marker_idx (c : List Nat) : Option Nat :=
  findFrom c endPattern (provisional_end c)

/-- The final header boundary `header_end` of the source: just past the
pattern when found, else `max(provisional, 100)`. -/
def header_end (c : List Nat) : Nat :=
  match marker_idx c with
  | some p => p + 8
  | none => max (provisional_end c) 100

/-- The data region `data_bytes = content[header_end:]`. -/
def data_bytes (c : List Nat) : List Nat := c.drop (header_end c)

/-- The detected data format label. -/
inductive DataFormat where
  | f32be
  | f32le
  | i16
  | bytes
deriving DecidableEq

/-- A decoded output value: a binary32 value on the float path, an
unsigned integer on the int16 and raw-byte paths. -/
inductive Val where
  | f (x : F32)
  | n (k : Nat)
deriving DecidableEq

/-- Step 3a/3 of the source: detect the format of the data region and
decode it, also returning `data_point_count`.  Length a positive multiple
of 4: decode both endiannesses and keep the one with the higher plausibility
score, ties favouring big-endian; else a positive multiple of 2: unsigned
16-bit little-endian; else raw bytes. -/
def detectAndDecode (d : List Nat) : DataFormat × Nat × List Val :=
  let n := d.length
  if n % 4 = 0 ∧ 0 < n then
    let floats_le := decodeLEList d
    let floats_be := decodeBEList d
    if score_float_array floats_be ≥ score_float_array floats_le then
      (DataFormat.f32be, n / 4, floats_be.map Val.f)
    else
      (DataFormat.f32le, n / 4, floats_le.map Val.f)
  else if n % 2 = 0 ∧ 0 < n then
    (DataFormat.i16, n / 2, (decodeU16List d).map Val.n)
  else
    (DataFormat.bytes, n, d.map (fun b => Val.n (b % 256)))

/-- Resolve one Python slice index against a length: negative indices count
from the end, and the result is clamped into `[0, len]`. -/
def pyIdx (len : Nat) (i : Int) : Nat :=
  if i < 0 then (i + len).toNat else min i.toNat len

/-- Python slice `c[a:b]`: the elements from the resolved start (inclusive)
to the resolved stop (exclusive), empty when start ≥ stop. -/
def pySlice (c : List Nat) (a b : Int) : List Nat :=
  (c.take (pyIdx c.length b)).drop (pyIdx c.length a)

/-- `struct.unpack('>f', bs)`: succeeds exactly on 4 bytes, giving the
big-endian binary32 value; any other length raises (modelled as `none`). -/
def unpackF32be (bs : List Nat) : Option F32 :=
  match bs with
  | [b0, b1, b2, b3] => some (decodeF32 b0 b1 b2 b3)
  | _ => none

/-- The `try` block reading the axis metadata: unpack
`content[p-8:p-4]` and `content[p-4:p]` as big-endian binary32; if either
unpack raises, both results are discarded (`none`), as the `except` clause
sets both to `None`. -/
def readAxis (c : List Nat) (p : Nat) : Option (F32 × F32) :=
  match unpackF32be (pySlice c ((p : Int) - 8) ((p : Int) - 4)),
        unpackF32be (pySlice c ((p : Int) - 4) (p : Int)) with
  | some s, some e => some (s, e)
  | _, _ => none

/-- The big-endian binary32 value stored at byte offset `j` of the buffer
(out-of-range bytes read as 0; only used under in-range hypotheses). -/
def f32At (c : List Nat) (j : Nat) : F32 :=
  decodeF32 (c.getD j 0) (c.getD (j + 1) 0) (c.getD (j + 2) 0) (c.getD (j + 3) 0)

/-- Step 4 of the source, float path: the axis endpoints actually used —
the metadata read when the pattern was found and the read succeeded, else
the index-based default `(0.0, float(count - 1))` (Python integer
subtraction, so `-1.0` when the count is `0`). -/
def axisParams (c : List Nat) (cnt : Nat) : F32 × F32 :=
  match marker_idx c with
  | some p =>
    match readAxis c p with
    | some se => se
    | none => (F32.finite 0, F32.finite (((cnt : ℤ) - 1 : ℤ) : ℚ))
  | none => (F32.finite 0, F32.finite (((cnt : ℤ) - 1 : ℤ) : ℚ))

/-- Rational addition via `Rat.divInt`, so that it evaluates by kernel
reduction; equal to `a + b` (`qAdd_eq`). -/
def qAdd (a b : ℚ) : ℚ := Rat.divInt (a.num * b.den + b.num * a.den) (a.den * b.den)

/-- Rational subtraction via `Rat.divInt`; equal to `a - b` (`qSub_eq`). -/
def qSub (a b : ℚ) : ℚ := Rat.divInt (a.num * b.den - b.num * a.den) (a.den * b.den)

/-- Multiplication of a rational by a natural via `Rat.divInt`; equal to
`i * q` (`qMulNat_eq`). -/
def qMulNat (i : Nat) (q : ℚ) : ℚ := Rat.divInt (i * q.num) q.den

/-- Division of a rational by a natural via `Rat.divInt`; equal to `q / n`
(`qDivNat_eq`). -/
def qDivNat (q : ℚ) (n : Nat) : ℚ := Rat.divInt q.num (q.den * n)

/-- Round a rational to the nearest integer, ties to even (the rounding of
the last retained bit in IEEE round-to-nearest). -/
def rne (x : ℚ) : ℤ :=
  if x - ⌊x⌋ < 1 / 2 then ⌊x⌋
  else if 1 / 2 < x - ⌊x⌋ then ⌊x⌋ + 1
  else if ⌊x⌋ % 2 = 0 then ⌊x⌋ else ⌊x⌋ + 1

/-- Round a rational to 53 significant bits, round-to-nearest ties-to-even:
the rounding IEEE binary64 applies to the exact result of every arithmetic
operation.  The exponent is unbounded (no overflow or subnormal handling);
both thresholds are out of reach for the values this pipeline produces. -/
def fl (q : ℚ) : ℚ :=
  if q = 0 then 0
  else ((rne (q * 2 ^ (52 - Int.log 2 |q|)) : ℤ) : ℚ) * 2 ^ (Int.log 2 |q| - 52)

/-- IEEE binary64 subtraction: the exact difference of finite values,
rounded by `fl`; special values by the IEEE rules (`inf - inf = nan`,
`nan` propagates). -/
def vSub : F32 → F32 → F32
  | F32.nan, _ => F32.nan
  | _, F32.nan => F32.nan
  | F32.inf, F32.inf => F32.nan
  | F32.inf, _ => F32.inf
  | F32.negInf, F32.negInf => F32.nan
  | F32.negInf, _ => F32.negInf
  | F32.finite _, F32.inf => F32.negInf
  | F32.finite _, F32.negInf => F32.inf
  | F32.finite a, F32.finite b => F32.finite (fl (qSub a b))

/-- IEEE binary64 addition: the exact sum of finite values, rounded by
`fl`; special values by the IEEE rules. -/
def vAdd : F32 → F32 → F32
  | F32.nan, _ => F32.nan
  | _, F32.nan => F32.nan
  | F32.inf, F32.negInf => F32.nan
  | F32.negInf, F32.inf => F32.nan
  | F32.inf, _ => F32.inf
  | _, F32.inf => F32.inf
  | F32.negInf, _ => F32.negInf
  | _, F32.negInf => F32.negInf
  | F32.finite a, F32.finite b => F32.finite (fl (qAdd a b))

/-- IEEE binary64 division of a value by a positive integer count: the
exact quotient, rounded by `fl`. -/
def vDivNat (a : F32) (n : Nat) : F32 :=
  match a with
  | F32.nan => F32.nan
  | F32.inf => F32.inf
  | F32.negInf => F32.negInf
  | F32.finite q => F32.finite (fl (qDivNat q n))

/-- IEEE binary64 multiplication of a value by a nonnegative integer
index: the exact product, rounded by `fl` (`0 * inf = nan` per IEEE). -/
def vMulNat (i : Nat) : F32 → F32
  | F32.nan => F32.nan
  | F32.inf => if i = 0 then F32.nan else F32.inf
  | F32.negInf => if i = 0 then F32.nan else F32.negInf
  | F32.finite q => F32.finite (fl (qMulNat i q))

/-- The axis step of the source: `(end - start) / (count - 1)` when
`count > 1`, else the integer `0` (exact on the float path). -/
def stepOf (s e : F32) (cnt : Nat) : F32 :=
  if 1 < cnt then vDivNat (vSub e s) (cnt - 1) else F32.finite 0

/-- The float-path wavelength axis:
`[start + i*step for i in range(count)]`. -/
def floatWavelengths (s e : F32) (cnt : Nat) : List F32 :=
  (List.range cnt).map (fun i => vAdd s (vMulNat i (stepOf s e cnt)))

/-- The observable output of the core decode: the detected format label and
the `(wavelength, value)` rows the CSV writer receives. -/
structure PipeOut where
  data_type : DataFormat
  rows : List (Val × Val)
deriving DecidableEq

/-- Whether the format label is a float32 variant
(`data_type.startswith('float32')`). -/
def isFloatFmt : DataFormat → Bool
  | DataFormat.f32be => true
  | DataFormat.f32le => true
  | _ => false

/-- The core decode of `process_spectro_file`: header location, format
detection, decoding and axis reconstruction, producing the rows `zip`
hands to the CSV writer.  The file I/O around it is not modelled. -/
def process_spectro_file (c : List Nat) : PipeOut :=
  let d := data_bytes c
  let dd := detectAndDecode d
  let dt := dd.1
  let cnt := dd.2.1
  let values := dd.2.2
  let wavelengths : List Val :=
    if isFloatFmt dt then
      let se := axisParams c cnt
      (floatWavelengths se.1 se.2 cnt).map Val.f
    else
      (List.range cnt).map Val.n
  { data_type := dt, rows := wavelengths.zip values }

/-- The buffer of the specification's Scenario 1, filler bytes zero, with
the layout exactly as the scenario states it: `".WAV\x00"`, 92 filler
bytes, the 8-byte end-of-header pattern, then the 8 metadata bytes
`(400.0, 700.0)` big-endian, then the 8 data bytes `[1.0, 2.0]`
big-endian. -/
def scenario1Buf : List Nat :=
  [46, 87, 65, 86, 0] ++ List.replicate 92 0 ++ [0, 0, 0, 0, 64, 64, 0, 0] ++
    [67, 200, 0, 0, 68, 47, 0, 0] ++ [63, 128, 0, 0, 64, 0, 0, 0]

/-- The Scenario 1 buffer with the metadata moved to where the code reads
it: the 8 metadata bytes `(400.0, 700.0)` immediately BEFORE the 8-byte
end-of-header pattern, followed by the 8 data bytes `[1.0, 2.0]`. -/
def scenario1Buf' : List Nat :=
  [46, 87, 65, 86, 0] ++ List.replicate 92 0 ++ [67, 200, 0, 0, 68, 47, 0, 0] ++
    [0, 0, 0, 0, 64, 64, 0, 0] ++ [63, 128, 0, 0, 64, 0, 0, 0]

theorem matchAt_bound {c pat : List Nat} {i : Nat} (hp : pat ≠ [])
    (h : matchAt c pat i = true) : i + pat.length ≤ c.length := by
  unfold matchAt at h
  rw [decide_eq_true_iff] at h
  have h2 : min pat.length (c.length - i) = pat.length := by
    simpa [List.length_take, List.length_drop] using congrArg List.length h
  have h3 : 0 < pat.length := List.length_pos.mpr hp
  omega

theorem findFrom_some {c pat : List Nat} {s p : Nat}
    (h : findFrom c pat s = some p) : s ≤ p ∧ matchAt c pat p = true := by
  unfold findFrom at h
  have hp : p ∈ ((List.range (c.length + 1)).filter
      (fun i => decide (s ≤ i) && matchAt c pat i)).head? := by
    rw [h]; rfl
  have hmem := List.mem_of_mem_head? hp
  rw [List.mem_filter] at hmem
  have hcond := hmem.2
  rw [Bool.and_eq_true, decide_eq_true_iff] at hcond
  exact hcond

theorem findFrom_none {c pat : List Nat} (s : Nat)
    (h : containsPat c pat = false) : findFrom c pat s = none := by
  unfold containsPat at h
  rw [List.any_eq_false] at h
  unfold findFrom
  rw [List.head?_eq_none_iff, List.filter_eq_nil_iff]
  intro a ha
  simp [h a ha]

theorem provisional_le (c : List Nat) : provisional_end c ≤ c.length := by
  unfold provisional_end
  split
  · omega
  · split
    · omega
    · rename_i idx _ np hn
      have hb := matchAt_bound (by simp) (findFrom_some hn).2
      simpa using hb

theorem marker_bound {c : List Nat} {p : Nat} (h : marker_idx c = some p) :
    p + 8 ≤ c.length := by
  unfold marker_idx at h
  have hb := matchAt_bound (by simp [endPattern]) (findFrom_some h).2
  simpa [endPattern] using hb

/-- C4 counterexample: on the empty buffer no `".WAV"` and no pattern is
found, so `header_end = max(0, 100) = 100`, which exceeds the buffer
length `0`: the invariant `HeaderBoundary <= length(RawBuffer)` fails. -/
theorem spec2proof_C4_cex :
    header_end ([] : List Nat) = 100 ∧
      ¬ header_end ([] : List Nat) ≤ ([] : List Nat).length := by
  decide

/-- C4 amended: for every input buffer the computed HeaderBoundary
satisfies `0 <= HeaderBoundary <= max(length(RawBuffer), 100)`; the upper
bound `length(RawBuffer)` alone fails on buffers shorter than the
100-byte fallback skip. -/
theorem spec2proof_C4 (c : List Nat) : header_end c ≤ max c.length 100 := by
  unfold header_end
  split
  · rename_i p hm
    have := marker_bound hm
    omega
  · have := provisional_le c
    omega

/-- C7: a buffer containing neither `".WAV"` nor the 8-byte pattern gets
`header_end = 100` exactly; if moreover it has length 7, the data region
is empty, the detected format is `bytes` and the output has 0 rows. -/
theorem spec2proof_C7 (c : List Nat)
    (hw : containsPat c wavMarker = false)
    (hm : containsPat c endPattern = false) :
    header_end c = 100 ∧
      (c.length = 7 → (process_spectro_file c).data_type = DataFormat.bytes ∧
        (process_spectro_file c).rows = []) := by
  have hprov : provisional_end c = 0 := by
    unfold provisional_end
    simp only [findFrom_none 0 hw]
  have hhe : header_end c = 100 := by
    unfold header_end marker_idx
    simp only [findFrom_none (provisional_end c) hm]
    omega
  refine ⟨hhe, fun h7 => ?_⟩
  have hd : data_bytes c = [] := by
    unfold data_bytes
    rw [hhe]
    apply List.drop_eq_nil_of_le
    omega
  constructor
  · simp [process_spectro_file, hd, detectAndDecode]
  · simp [process_spectro_file, hd, detectAndDecode, isFloatFmt]

/-- C7 witness: the concrete 7-byte buffer of all `1` bytes contains
neither `".WAV"` nor the pattern, gets `header_end = 100`, format `bytes`
and zero output rows. -/
theorem spec2proof_C7_witness :
    header_end [1, 1, 1, 1, 1, 1, 1] = 100 ∧
      (process_spectro_file [1, 1, 1, 1, 1, 1, 1]).data_type = DataFormat.bytes ∧
      (process_spectro_file [1, 1, 1, 1, 1, 1, 1]).rows = [] :=
  ⟨(spec2proof_C7 [1, 1, 1, 1, 1, 1, 1] (by decide) (by decide)).1,
   ((spec2proof_C7 [1, 1, 1, 1, 1, 1, 1] (by decide) (by decide)).2 (by decide)).1,
   ((spec2proof_C7 [1, 1, 1, 1, 1, 1, 1] (by decide) (by decide)).2 (by decide)).2⟩

/-- C10: when `".WAV"` occurs but no null byte occurs at or after its
first occurrence, the provisional boundary stays 0 — as if `".WAV"` were
absent — and the pattern search and the `max(boundary, 100)` fallback
proceed from offset 0. -/
theorem spec2proof_C10 (c : List Nat) (idx : Nat)
    (hw : findFrom c wavMarker 0 = some idx)
    (hn : findFrom c [0] idx = none) :
    provisional_end c = 0 ∧
      header_end c =
        (match findFrom c endPattern 0 with
         | some p => p + 8
         | none => 100) := by
  have hprov : provisional_end c = 0 := by
    unfold provisional_end
    simp only [hw, hn]
  refine ⟨hprov, ?_⟩
  unfold header_end marker_idx
  rw [hprov]
  cases findFrom c endPattern 0 <;> simp

/-- C10 witness: the 4-byte buffer `".WAV"` (no null byte at all) has
provisional boundary 0 and, the pattern being absent, `header_end`
becomes 100. -/
theorem spec2proof_C10_witness :
    provisional_end [46, 87, 65, 86] = 0 ∧
      header_end [46, 87, 65, 86] =
        (match findFrom [46, 87, 65, 86] endPattern 0 with
         | some p => p + 8
         | none => 100) :=
  spec2proof_C10 [46, 87, 65, 86] 0 (by decide) (by decide)

theorem decodeBEList_length (l : List Nat) : (decodeBEList l).length = l.length / 4 := by
  induction l using decodeBEList.induct with
  | case1 b0 b1 b2 b3 rest ih =>
    simp only [decodeBEList, List.length_cons, ih]
    omega
  | case2 t h =>
    match t, h with
    | [], _ => rfl
    | [_], _ => simp [decodeBEList]
    | [_, _], _ => simp [decodeBEList]
    | [_, _, _], _ => simp [decodeBEList]
    | a :: b :: c :: d :: rest, h => exact (h a b c d rest rfl).elim

theorem decodeLEList_length (l : List Nat) : (decodeLEList l).length = l.length / 4 := by
  induction l using decodeLEList.induct with
  | case1 b0 b1 b2 b3 rest ih =>
    simp only [decodeLEList, List.length_cons, ih]
    omega
  | case2 t h =>
    match t, h with
    | [], _ => rfl
    | [_], _ => simp [decodeLEList]
    | [_, _], _ => simp [decodeLEList]
    | [_, _, _], _ => simp [decodeLEList]
    | a :: b :: c :: d :: rest, h => exact (h a b c d rest rfl).elim

theorem decodeU16List_length (l : List Nat) : (decodeU16List l).length = l.length / 2 := by
  induction l using decodeU16List.induct with
  | case1 b0 b1 rest ih =>
    simp only [decodeU16List, List.length_cons, ih]
    omega
  | case2 t h =>
    match t, h with
    | [], _ => rfl
    | [_], _ => simp [decodeU16List]
    | a :: b :: rest, h => exact (h a b rest rfl).elim

theorem score_eq_specScore (arr : List F32) : score_float_array arr = specScore arr := by
  unfold score_float_array specScore
  rw [← List.countP_eq_length_filter]
  induction arr with
  | nil => rfl
  | cons x t ih =>
    rw [List.countP_cons, List.countP_cons, ih]
    cases x <;> simp [ieeeEq, ieeeLt, specValid]

theorem dd_values_length (d : List Nat) :
    (detectAndDecode d).2.2.length = (detectAndDecode d).2.1 := by
  simp only [detectAndDecode]
  split
  · split <;> simp [decodeBEList_length, decodeLEList_length]
  · split <;> simp [decodeU16List_length]

theorem process_rows_length (c : List Nat) :
    (process_spectro_file c).rows.length = (detectAndDecode (data_bytes c)).2.1 := by
  unfold process_spectro_file
  rw [List.length_zip]
  rw [dd_values_length]
  split <;> simp [floatWavelengths]

theorem dd_count (d : List Nat) :
    (detectAndDecode d).2.1 =
      (if d.length % 4 = 0 then d.length / 4
       else if d.length % 2 = 0 then d.length / 2 else d.length) := by
  simp only [detectAndDecode]
  by_cases h4 : d.length % 4 = 0 ∧ 0 < d.length
  · rw [if_pos h4, if_pos h4.1]
    split <;> rfl
  · rw [if_neg h4]
    push_neg at h4
    by_cases h2 : d.length % 2 = 0 ∧ 0 < d.length
    · rw [if_pos h2]
      have h4' : ¬ d.length % 4 = 0 := fun hh => absurd h2.2 (by omega)
      rw [if_neg h4', if_pos h2.1]
    · rw [if_neg h2]
      push_neg at h2
      by_cases hz : d.length = 0
      · rw [hz]
        simp
      · have hp : 0 < d.length := Nat.pos_of_ne_zero hz
        have h4' : ¬ d.length % 4 = 0 := fun hh => absurd hp (by simpa using h4 hh)
        have h2' : ¬ d.length % 2 = 0 := fun hh => absurd hp (by simpa using h2 hh)
        rw [if_neg h4', if_neg h2']

/-- C2: for every input buffer, with `L` the data-region length, the
number of output rows is `L/4` when `4 ∣ L`, else `L/2` when `2 ∣ L`, else
`L`; and it always equals the number of decoded samples. -/
theorem spec2proof_C2 (c : List Nat) :
    (process_spectro_file c).rows.length = (detectAndDecode (data_bytes c)).2.2.length ∧
      (process_spectro_file c).rows.length =
        (if (data_bytes c).length % 4 = 0 then (data_bytes c).length / 4
         else if (data_bytes c).length % 2 = 0 then (data_bytes c).length / 2
         else (data_bytes c).length) := by
  refine ⟨?_, ?_⟩
  · rw [process_rows_length, dd_values_length]
  · rw [process_rows_length, dd_count]

theorem dd_format_cases (d : List Nat) :
    (detectAndDecode d).1 = DataFormat.f32be ∨ (detectAndDecode d).1 = DataFormat.f32le ∨
      (detectAndDecode d).1 = DataFormat.i16 ∨ (detectAndDecode d).1 = DataFormat.bytes := by
  simp only [detectAndDecode]
  split
  · split <;> simp
  · split <;> simp

/-- C6: the core decode is a total function of the buffer — the embedding
covers every input with no failing path — and every buffer is assigned
exactly one of the four formats `float32_be`, `float32_le`, `int16`,
`bytes`. -/
theorem spec2proof_C6 (c : List Nat) :
    (process_spectro_file c).data_type = DataFormat.f32be ∨
      (process_spectro_file c).data_type = DataFormat.f32le ∨
      (process_spectro_file c).data_type = DataFormat.i16 ∨
      (process_spectro_file c).data_type = DataFormat.bytes :=
  dd_format_cases (data_bytes c)

/-- C1: when the data region length is a positive multiple of 4, the
detector decodes the region as both little- and big-endian float32 arrays,
scores each by the count of finite non-NaN values strictly inside
`(-1000, 1000)`, and selects big-endian exactly when its score is at
least the little-endian score (ties to big-endian), else little-endian. -/
theorem spec2proof_C1 (c : List Nat)
    (h4 : (data_bytes c).length % 4 = 0) (hpos : 0 < (data_bytes c).length) :
    (process_spectro_file c).data_type =
      (if specScore (decodeBEList (data_bytes c)) ≥ specScore (decodeLEList (data_bytes c))
       then DataFormat.f32be else DataFormat.f32le) := by
  have hdt : (process_spectro_file c).data_type = (detectAndDecode (data_bytes c)).1 := rfl
  rw [hdt]
  simp only [detectAndDecode]
  rw [if_pos ⟨h4, hpos⟩]
  rw [show score_float_array (decodeBEList (data_bytes c)) =
        specScore (decodeBEList (data_bytes c)) from score_eq_specScore _,
      show score_float_array (decodeLEList (data_bytes c)) =
        specScore (decodeLEList (data_bytes c)) from score_eq_specScore _]
  by_cases hs : specScore (decodeBEList (data_bytes c)) ≥ specScore (decodeLEList (data_bytes c))
  · rw [if_pos hs, if_pos hs]
  · rw [if_neg hs, if_neg hs]

/-- C1 witness: a concrete 104-byte buffer (no `".WAV"`, no pattern,
`header_end = 100`, 4 data bytes) on which the theorem's hypotheses hold
and which is detected big-endian. -/
theorem spec2proof_C1_witness :
    (process_spectro_file (List.replicate 104 1)).data_type =
      (if specScore (decodeBEList (data_bytes (List.replicate 104 1))) ≥
          specScore (decodeLEList (data_bytes (List.replicate 104 1)))
       then DataFormat.f32be else DataFormat.f32le) :=
  spec2proof_C1 (List.replicate 104 1) (by decide) (by decide)

theorem getD_drop (c : List Nat) (s i : Nat) :
    (c.drop s).getD i 0 = c.getD (s + i) 0 := by
  induction c generalizing s with
  | nil => simp
  | cons a t ih =>
    cases s with
    | zero => simp
    | succ m => simp [Nat.succ_add, ih m]

theorem take_four_of_le (l : List Nat) (h : 4 ≤ l.length) :
    l.take 4 = [l.getD 0 0, l.getD 1 0, l.getD 2 0, l.getD 3 0] := by
  match l with
  | b0 :: b1 :: b2 :: b3 :: t => rfl
  | [] => simp at h
  | [_] => simp at h
  | [_, _] => simp at h
  | [_, _, _] => simp at h

theorem pySlice_four (c : List Nat) (s : Nat) (h : s + 4 ≤ c.length) :
    pySlice c (s : ℤ) ((s : ℤ) + 4) =
      [c.getD s 0, c.getD (s + 1) 0, c.getD (s + 2) 0, c.getD (s + 3) 0] := by
  unfold pySlice pyIdx
  rw [if_neg (show ¬ ((s : ℤ) + 4 < 0) by omega), if_neg (show ¬ ((s : ℤ) < 0) by omega)]
  rw [show ((s : ℤ) + 4).toNat = s + 4 by omega, show ((s : ℤ)).toNat = s by omega]
  rw [min_eq_left h, min_eq_left (by omega : s ≤ c.length)]
  rw [← List.take_drop]
  rw [take_four_of_le (c.drop s) (by simp [List.length_drop]; omega)]
  rw [getD_drop, getD_drop, getD_drop, getD_drop, Nat.add_zero]

theorem readAxis_inBounds {c : List Nat} {p : Nat} (h8 : 8 ≤ p) (hp : p ≤ c.length) :
    readAxis c p = some (f32At c (p - 8), f32At c (p - 4)) := by
  have hs1 : unpackF32be (pySlice c ((p : ℤ) - 8) ((p : ℤ) - 4)) = some (f32At c (p - 8)) := by
    rw [show ((p : ℤ) - 8) = ((p - 8 : ℕ) : ℤ) by omega,
        show ((p : ℤ) - 4) = ((p - 8 : ℕ) : ℤ) + 4 by omega,
        pySlice_four c (p - 8) (by omega)]
    rfl
  have hs2 : unpackF32be (pySlice c ((p : ℤ) - 4) (p : ℤ)) = some (f32At c (p - 4)) := by
    rw [show ((p : ℤ) - 4) = ((p - 4 : ℕ) : ℤ) by omega,
        show (p : ℤ) = ((p - 4 : ℕ) : ℤ) + 4 by omega,
        pySlice_four c (p - 4) (by omega)]
    rfl
  unfold readAxis
  rw [hs1, hs2]

theorem readAxis_outOfBounds {c : List Nat} {p : Nat} (hp8 : p + 8 ≤ c.length)
    (h8 : p < 8) : readAxis c p = none := by
  unfold readAxis
  rcases Nat.lt_or_ge p 4 with h4 | h4
  · have hempty : pySlice c ((p : ℤ) - 4) (p : ℤ) = [] := by
      unfold pySlice pyIdx
      rw [if_neg (show ¬ ((p : ℤ) < 0) by omega), if_pos (show ((p : ℤ) - 4) < 0 by omega)]
      apply List.drop_eq_nil_of_le
      simp only [List.length_take]
      omega
    rw [hempty]
    cases unpackF32be (pySlice c ((p : ℤ) - 8) ((p : ℤ) - 4)) <;> rfl
  · have hempty : pySlice c ((p : ℤ) - 8) ((p : ℤ) - 4) = [] := by
      unfold pySlice pyIdx
      rw [if_neg (show ¬ ((p : ℤ) - 4 < 0) by omega), if_pos (show ((p : ℤ) - 8) < 0 by omega)]
      apply List.drop_eq_nil_of_le
      simp only [List.length_take]
      omega
    rw [hempty]
    rfl

/-- C3: when the marker is found at position `p` and the format is a
float32 variant, the metadata read takes the 8 bytes immediately before
`p` as two consecutive big-endian float32 values whenever `p ≥ 8` (in
which case, the marker being in bounds, it cannot fail), and for every
`p < 8` the read raises and the axis falls back to the index-based default
`startWavelength = 0.0`, `endWavelength = N - 1`. -/
theorem spec2proof_C3 (c : List Nat) (p : Nat) (hm : marker_idx c = some p) :
    (8 ≤ p → readAxis c p = some (f32At c (p - 8), f32At c (p - 4))) ∧
      (p < 8 → readAxis c p = none) ∧
      (readAxis c p = none → ∀ cnt : Nat,
        axisParams c cnt = (F32.finite 0, F32.finite (((cnt : ℤ) - 1 : ℤ) : ℚ))) := by
  have hb := marker_bound hm
  refine ⟨fun h8 => readAxis_inBounds h8 (by omega),
    fun h8 => readAxis_outOfBounds hb h8, fun hn cnt => ?_⟩
  unfold axisParams
  simp only [hm, hn]

/-- A 9-byte buffer whose first 8 bytes are the end-of-header pattern
itself, so the marker is found at position 0 — fewer than 8 bytes precede
it. -/
def oobBuf : List Nat := [0, 0, 0, 0, 64, 64, 0, 0, 5]

/-- C3 witness: on `oobBuf` the marker sits at position 0, the metadata
read fails, and the axis parameters fall back to the index default. -/
theorem spec2proof_C3_witness :
    readAxis oobBuf 0 = none ∧
      axisParams oobBuf 2 = (F32.finite 0, F32.finite (((2 : ℤ) - 1 : ℤ) : ℚ)) := by
  refine ⟨(spec2proof_C3 oobBuf 0 (by decide)).2.1 (by decide), ?_⟩
  exact (spec2proof_C3 oobBuf 0 (by decide)).2.2
    ((spec2proof_C3 oobBuf 0 (by decide)).2.1 (by decide)) 2

theorem num_eq_mul_den (a : ℚ) : (a.num : ℚ) = a * a.den := by
  have ha : (a.den : ℚ) ≠ 0 := Nat.cast_ne_zero.mpr a.den_nz
  exact (div_eq_iff ha).mp (Rat.num_div_den a)

theorem qAdd_eq (a b : ℚ) : qAdd a b = a + b := by
  have ha : (a.den : ℚ) ≠ 0 := Nat.cast_ne_zero.mpr a.den_nz
  have hb : (b.den : ℚ) ≠ 0 := Nat.cast_ne_zero.mpr b.den_nz
  rw [qAdd, Rat.divInt_eq_div]
  push_cast
  rw [div_eq_iff (mul_ne_zero ha hb), num_eq_mul_den a, num_eq_mul_den b]
  ring

theorem qSub_eq (a b : ℚ) : qSub a b = a - b := by
  have ha : (a.den : ℚ) ≠ 0 := Nat.cast_ne_zero.mpr a.den_nz
  have hb : (b.den : ℚ) ≠ 0 := Nat.cast_ne_zero.mpr b.den_nz
  rw [qSub, Rat.divInt_eq_div]
  push_cast
  rw [div_eq_iff (mul_ne_zero ha hb), num_eq_mul_den a, num_eq_mul_den b]
  ring

theorem qMulNat_eq (i : Nat) (q : ℚ) : qMulNat i q = i * q := by
  have hq : (q.den : ℚ) ≠ 0 := Nat.cast_ne_zero.mpr q.den_nz
  rw [qMulNat, Rat.divInt_eq_div]
  push_cast
  rw [div_eq_iff hq, num_eq_mul_den q]
  ring

theorem qDivNat_eq (q : ℚ) (n : Nat) : qDivNat q n = q / n := by
  rcases Nat.eq_zero_or_pos n with hn | hn
  · subst hn
    rw [qDivNat]
    norm_num
  · have hq : (q.den : ℚ) ≠ 0 := Nat.cast_ne_zero.mpr q.den_nz
    have hn' : (n : ℚ) ≠ 0 := Nat.cast_ne_zero.mpr (Nat.pos_iff_ne_zero.mp hn)
    rw [qDivNat, Rat.divInt_eq_div]
    push_cast
    rw [div_eq_iff (mul_ne_zero hq hn'), num_eq_mul_den q]
    rw [div_mul_eq_mul_div, eq_div_iff hn']
    ring

theorem rne_intCast (n : ℤ) : rne (n : ℚ) = n := by
  unfold rne
  norm_num

theorem floor_le_rne (x : ℚ) : ⌊x⌋ ≤ rne x := by
  unfold rne
  split_ifs <;> omega

theorem rne_le_floor_add_one (x : ℚ) : rne x ≤ ⌊x⌋ + 1 := by
  unfold rne
  split_ifs <;> omega

theorem rne_eq_floor {x : ℚ} (h : x - ⌊x⌋ < 1 / 2) : rne x = ⌊x⌋ := by
  unfold rne
  rw [if_pos h]

theorem rne_eq_floor_add_one {x : ℚ} (h : 1 / 2 < x - ⌊x⌋) : rne x = ⌊x⌋ + 1 := by
  unfold rne
  rw [if_neg (by linarith), if_pos h]

theorem rne_mono {x y : ℚ} (h : x ≤ y) : rne x ≤ rne y := by
  have hf : ⌊x⌋ ≤ ⌊y⌋ := Int.floor_le_floor h
  by_cases h1 : x - ⌊x⌋ < 1 / 2
  · calc rne x = ⌊x⌋ := rne_eq_floor h1
      _ ≤ ⌊y⌋ := hf
      _ ≤ rne y := floor_le_rne y
  · rcases lt_or_eq_of_le hf with hlt | heq
    · calc rne x ≤ ⌊x⌋ + 1 := rne_le_floor_add_one x
        _ ≤ ⌊y⌋ := by omega
        _ ≤ rne y := floor_le_rne y
    · have hxf : (⌊x⌋ : ℚ) = (⌊y⌋ : ℚ) := by exact_mod_cast heq
      by_cases h2 : 1 / 2 < y - ⌊y⌋
      · calc rne x ≤ ⌊x⌋ + 1 := rne_le_floor_add_one x
          _ = ⌊y⌋ + 1 := by omega
          _ = rne y := (rne_eq_floor_add_one h2).symm
      · have hxy : x = y := by
          have hx2 : 1 / 2 ≤ x - ⌊x⌋ := not_lt.mp h1
          have hy2 : y - ⌊y⌋ ≤ 1 / 2 := not_lt.mp h2
          rw [← hxf] at hy2
          linarith
        rw [hxy]

theorem fl_zero : fl 0 = 0 := by
  unfold fl
  simp

theorem fl_eq_self {m z : ℤ} (hm : m.natAbs < 2 ^ 53) :
    fl ((m : ℚ) * 2 ^ z) = (m : ℚ) * 2 ^ z := by
  rcases eq_or_ne m 0 with rfl | hm0
  · simp [fl]
  · have h2 : (2 : ℚ) ≠ 0 := two_ne_zero
    have hqne : (m : ℚ) * 2 ^ z ≠ 0 :=
      mul_ne_zero (Int.cast_ne_zero.mpr hm0) (zpow_ne_zero _ h2)
    have habs : |(m : ℚ) * 2 ^ z| = (m.natAbs : ℚ) * 2 ^ z := by
      rw [abs_mul, show |(2 : ℚ) ^ z| = (2 : ℚ) ^ z from abs_of_pos (zpow_pos two_pos z),
        Int.cast_natAbs, Int.cast_abs]
    have hub : |(m : ℚ) * 2 ^ z| < 2 ^ (z + 53) := by
      rw [habs, zpow_add₀ h2]
      have hcast : ((m.natAbs : ℚ)) < 2 ^ 53 := by exact_mod_cast hm
      calc (m.natAbs : ℚ) * 2 ^ z < 2 ^ 53 * 2 ^ z :=
            mul_lt_mul_of_pos_right hcast (zpow_pos two_pos z)
        _ = 2 ^ z * 2 ^ (53 : ℤ) := by norm_num; ring
    have hlog : Int.log 2 |(m : ℚ) * 2 ^ z| < z + 53 := by
      apply (Int.lt_zpow_iff_log_lt (by norm_num) (abs_pos.mpr hqne)).mp
      push_cast
      exact hub
    have he : 0 ≤ 52 - Int.log 2 |(m : ℚ) * 2 ^ z| + z := by omega
    have hscaled : (m : ℚ) * 2 ^ z * 2 ^ (52 - Int.log 2 |(m : ℚ) * 2 ^ z|) =
        ((m * 2 ^ (52 - Int.log 2 |(m : ℚ) * 2 ^ z| + z).toNat : ℤ) : ℚ) := by
      push_cast
      rw [← zpow_natCast (2 : ℚ), Int.toNat_of_nonneg he, zpow_add₀ h2]
      ring
    unfold fl
    rw [if_neg hqne, hscaled, rne_intCast, ← hscaled, mul_assoc, ← zpow_add₀ h2]
    rw [show 52 - Int.log 2 |(m : ℚ) * 2 ^ z| + (Int.log 2 |(m : ℚ) * 2 ^ z| - 52) = 0 by ring]
    norm_num

theorem two_cast_log (x : ℚ) : (((2 : ℕ) : ℚ)) ^ (Int.log 2 x) = (2 : ℚ) ^ (Int.log 2 x) := by
  norm_num

theorem fl_lower {x : ℚ} (hx : 0 < x) : (2 : ℚ) ^ (Int.log 2 x) ≤ fl x := by
  have hxne : x ≠ 0 := ne_of_gt hx
  unfold fl
  rw [if_neg hxne, abs_of_pos hx]
  have hlow : (2 : ℚ) ^ (Int.log 2 x) ≤ x := by
    have h := Int.zpow_log_le_self (b := 2) (by norm_num) hx
    rwa [two_cast_log] at h
  have hsc : (2 : ℚ) ^ (52 : ℤ) ≤ x * 2 ^ (52 - Int.log 2 x) := by
    calc (2 : ℚ) ^ (52 : ℤ) = 2 ^ (Int.log 2 x) * 2 ^ (52 - Int.log 2 x) := by
          rw [← zpow_add₀ two_ne_zero]
          ring_nf
      _ ≤ x * 2 ^ (52 - Int.log 2 x) :=
          mul_le_mul_of_nonneg_right hlow (le_of_lt (zpow_pos two_pos _))
  have hfl : (2 ^ 52 : ℤ) ≤ ⌊x * 2 ^ (52 - Int.log 2 x)⌋ := by
    apply Int.le_floor.mpr
    rw [show (((2 ^ 52 : ℤ) : ℚ)) = (2 : ℚ) ^ (52 : ℤ) by push_cast; norm_num]
    exact hsc
  have hr := le_trans hfl (floor_le_rne (x * 2 ^ (52 - Int.log 2 x)))
  calc (2 : ℚ) ^ (Int.log 2 x) = ((2 ^ 52 : ℤ) : ℚ) * 2 ^ (Int.log 2 x - 52) := by
        rw [show (((2 ^ 52 : ℤ) : ℚ)) = (2 : ℚ) ^ (52 : ℤ) by push_cast; norm_num,
          ← zpow_add₀ two_ne_zero]
        ring_nf
    _ ≤ (rne (x * 2 ^ (52 - Int.log 2 x)) : ℚ) * 2 ^ (Int.log 2 x - 52) := by
        apply mul_le_mul_of_nonneg_right _ (le_of_lt (zpow_pos two_pos _))
        exact_mod_cast hr

theorem fl_upper {x : ℚ} (hx : 0 < x) : fl x ≤ (2 : ℚ) ^ (Int.log 2 x + 1) := by
  have hxne : x ≠ 0 := ne_of_gt hx
  unfold fl
  rw [if_neg hxne, abs_of_pos hx]
  have hup : x < (2 : ℚ) ^ (Int.log 2 x + 1) := by
    have h := Int.lt_zpow_succ_log_self (b := 2) (by norm_num) x
    rwa [show (((2 : ℕ) : ℚ)) ^ (Int.log 2 x + 1) = (2 : ℚ) ^ (Int.log 2 x + 1) by norm_num] at h
  have hsc : x * 2 ^ (52 - Int.log 2 x) < (2 : ℚ) ^ (53 : ℤ) := by
    calc x * 2 ^ (52 - Int.log 2 x) < 2 ^ (Int.log 2 x + 1) * 2 ^ (52 - Int.log 2 x) :=
          mul_lt_mul_of_pos_right hup (zpow_pos two_pos _)
      _ = 2 ^ (53 : ℤ) := by
          rw [← zpow_add₀ two_ne_zero]
          ring_nf
  have hfl : ⌊x * 2 ^ (52 - Int.log 2 x)⌋ < 2 ^ 53 := by
    apply Int.floor_lt.mpr
    rw [show (((2 ^ 53 : ℤ) : ℚ)) = (2 : ℚ) ^ (53 : ℤ) by push_cast; norm_num]
    exact hsc
  have hr : rne (x * 2 ^ (52 - Int.log 2 x)) ≤ 2 ^ 53 := by
    have h := rne_le_floor_add_one (x * 2 ^ (52 - Int.log 2 x))
    omega
  calc (rne (x * 2 ^ (52 - Int.log 2 x)) : ℚ) * 2 ^ (Int.log 2 x - 52) ≤
        ((2 ^ 53 : ℤ) : ℚ) * 2 ^ (Int.log 2 x - 52) := by
        apply mul_le_mul_of_nonneg_right _ (le_of_lt (zpow_pos two_pos _))
        exact_mod_cast hr
    _ = 2 ^ (Int.log 2 x + 1) := by
        rw [show (((2 ^ 53 : ℤ) : ℚ)) = (2 : ℚ) ^ (53 : ℤ) by push_cast; norm_num,
          ← zpow_add₀ two_ne_zero]
        ring_nf

theorem fl_pos {x : ℚ} (hx : 0 < x) : 0 < fl x :=
  lt_of_lt_of_le (zpow_pos two_pos _) (fl_lower hx)

theorem rne_neg (x : ℚ) : rne (-x) = - rne x := by
  by_cases hint : ∃ n : ℤ, x = (n : ℚ)
  · obtain ⟨n, rfl⟩ := hint
    rw [← Int.cast_neg, rne_intCast, rne_intCast]
  · have h1 : (⌊x⌋ : ℚ) < x := by
      rcases lt_or_eq_of_le (Int.floor_le x) with h | h
      · exact h
      · exact absurd ⟨⌊x⌋, h.symm⟩ hint
    have h2 : x < ⌊x⌋ + 1 := Int.lt_floor_add_one x
    have hfx : ⌊-x⌋ = -⌊x⌋ - 1 := by
      apply Int.floor_eq_iff.mpr
      constructor
      · push_cast
        linarith
      · push_cast
        linarith
    have hfr : -x - (⌊-x⌋ : ℚ) = 1 - (x - ⌊x⌋) := by
      rw [hfx]
      push_cast
      ring
    by_cases hc1 : x - ⌊x⌋ < 1 / 2
    · rw [rne_eq_floor hc1, rne_eq_floor_add_one (by rw [hfr]; linarith), hfx]
      ring
    · by_cases hc2 : 1 / 2 < x - ⌊x⌋
      · rw [rne_eq_floor_add_one hc2, rne_eq_floor (by rw [hfr]; linarith), hfx]
        ring
      · have hc3 : x - ⌊x⌋ = 1 / 2 := by linarith [not_lt.mp hc1, not_lt.mp hc2]
        have hc3' : -x - (⌊-x⌋ : ℚ) = 1 / 2 := by rw [hfr, hc3]; norm_num
        have hx_val : rne x = if ⌊x⌋ % 2 = 0 then ⌊x⌋ else ⌊x⌋ + 1 := by
          unfold rne
          rw [if_neg (show ¬ (x - (⌊x⌋ : ℚ) < 1 / 2) by rw [hc3]; norm_num),
            if_neg (show ¬ ((1 : ℚ) / 2 < x - (⌊x⌋ : ℚ)) by rw [hc3]; norm_num)]
        have hnx_val : rne (-x) = if ⌊-x⌋ % 2 = 0 then ⌊-x⌋ else ⌊-x⌋ + 1 := by
          unfold rne
          rw [if_neg (show ¬ (-x - (⌊-x⌋ : ℚ) < 1 / 2) by rw [hc3']; norm_num),
            if_neg (show ¬ ((1 : ℚ) / 2 < -x - (⌊-x⌋ : ℚ)) by rw [hc3']; norm_num)]
        rw [hx_val, hnx_val, hfx]
        by_cases hp : ⌊x⌋ % 2 = 0
        · rw [if_pos hp, if_neg (by omega)]
          omega
        · rw [if_neg hp, if_pos (by omega)]
          omega

theorem fl_neg (x : ℚ) : fl (-x) = - fl x := by
  rcases eq_or_ne x 0 with rfl | hx
  · simp [fl]
  · unfold fl
    rw [if_neg (neg_ne_zero.mpr hx), if_neg hx, abs_neg]
    rw [show -x * 2 ^ (52 - Int.log 2 |x|) = -(x * 2 ^ (52 - Int.log 2 |x|)) by ring, rne_neg]
    push_cast
    ring

theorem fl_mono_pos {x y : ℚ} (hx : 0 < x) (hxy : x ≤ y) : fl x ≤ fl y := by
  have hy : 0 < y := lt_of_lt_of_le hx hxy
  have hlog : Int.log 2 x ≤ Int.log 2 y := Int.log_mono_right hx hxy
  rcases lt_or_eq_of_le hlog with hlt | heq
  · calc fl x ≤ 2 ^ (Int.log 2 x + 1) := fl_upper hx
      _ ≤ 2 ^ (Int.log 2 y) := zpow_le_zpow_right₀ one_le_two (by omega)
      _ ≤ fl y := fl_lower hy
  · unfold fl
    rw [if_neg (ne_of_gt hx), if_neg (ne_of_gt hy), abs_of_pos hx, abs_of_pos hy, ← heq]
    apply mul_le_mul_of_nonneg_right _ (le_of_lt (zpow_pos two_pos _))
    have h := rne_mono (mul_le_mul_of_nonneg_right hxy
      (le_of_lt (zpow_pos two_pos (52 - Int.log 2 x))))
    exact_mod_cast h

theorem fl_mono {x y : ℚ} (h : x ≤ y) : fl x ≤ fl y := by
  rcases lt_trichotomy x 0 with hx | hx | hx
  · rcases lt_trichotomy y 0 with hy | hy | hy
    · have h1 : fl (-y) ≤ fl (-x) := fl_mono_pos (by linarith) (by linarith)
      rw [fl_neg, fl_neg] at h1
      linarith
    · subst hy
      have h1 : 0 < fl (-x) := fl_pos (by linarith)
      rw [fl_neg] at h1
      rw [fl_zero]
      linarith
    · have h1 : 0 < fl (-x) := fl_pos (by linarith)
      rw [fl_neg] at h1
      have h2 : 0 < fl y := fl_pos hy
      linarith
  · subst hx
    rw [fl_zero]
    rcases lt_or_eq_of_le h with hy | hy
    · exact le_of_lt (fl_pos hy)
    · rw [← hy, fl_zero]
  · exact fl_mono_pos hx h

theorem fl_neg_of_neg {x : ℚ} (hx : x < 0) : fl x < 0 := by
  have h1 : 0 < fl (-x) := fl_pos (by linarith)
  rw [fl_neg] at h1
  linarith

theorem fl_tie : fl (1 + 2 ^ (-53 : ℤ)) = 1 := by
  have hq : (0 : ℚ) < 1 + 2 ^ (-53 : ℤ) := by positivity
  have habs : |(1 : ℚ) + 2 ^ (-53 : ℤ)| = 1 + 2 ^ (-53 : ℤ) := abs_of_pos hq
  have hlog : Int.log 2 |(1 : ℚ) + 2 ^ (-53 : ℤ)| = 0 := by
    rw [habs]
    have hge : 0 ≤ Int.log 2 ((1 : ℚ) + 2 ^ (-53 : ℤ)) := by
      rw [show (0 : ℤ) = Int.log 2 (1 : ℚ) by rw [Int.log_one_right]]
      apply Int.log_mono_right one_pos
      have hp53 : (0 : ℚ) < 2 ^ (-53 : ℤ) := by positivity
      linarith
    have hlt : Int.log 2 ((1 : ℚ) + 2 ^ (-53 : ℤ)) < 1 := by
      apply (Int.lt_zpow_iff_log_lt (by norm_num) hq).mp
      rw [show (((2 : ℕ) : ℚ)) ^ (1 : ℤ) = 2 by norm_num]
      have h53 : (2 : ℚ) ^ (-53 : ℤ) < 1 := by
        rw [zpow_neg]
        rw [show ((2 : ℚ) ^ (53 : ℤ)) = ((2 ^ 53 : ℕ) : ℚ) by push_cast; norm_num]
        rw [inv_lt_one_iff₀]
        right
        norm_num
      linarith
    omega
  unfold fl
  rw [if_neg (ne_of_gt hq), hlog]
  have hsc : ((1 : ℚ) + 2 ^ (-53 : ℤ)) * 2 ^ ((52 : ℤ) - 0) = ((2 ^ 52 : ℤ) : ℚ) + 1 / 2 := by
    rw [show ((52 : ℤ) - 0) = (52 : ℤ) by ring, add_mul, one_mul,
      ← zpow_add₀ (two_ne_zero (α := ℚ)), show (-53 + 52 : ℤ) = -1 by ring, zpow_neg_one]
    rw [show (((2 ^ 52 : ℤ) : ℚ)) = (2 : ℚ) ^ (52 : ℤ) by push_cast; norm_num]
    norm_num
  rw [hsc]
  have hfloor : ⌊((2 ^ 52 : ℤ) : ℚ) + 1 / 2⌋ = 2 ^ 52 := by
    rw [add_comm, Int.floor_add_int]
    norm_num
  unfold rne
  rw [hfloor]
  have hfr : ((2 ^ 52 : ℤ) : ℚ) + 1 / 2 - ((2 ^ 52 : ℤ) : ℚ) = 1 / 2 := by ring
  rw [if_neg (by rw [hfr]; norm_num), if_neg (by rw [hfr]; norm_num),
    if_pos (by decide), mul_comm]
  rw [show (((2 ^ 52 : ℤ) : ℚ)) = (2 : ℚ) ^ (52 : ℤ) by push_cast; norm_num,
    ← zpow_add₀ (two_ne_zero (α := ℚ))]
  norm_num

theorem fl_int (n : ℤ) (hn : n.natAbs < 2 ^ 53) : fl ((n : ℤ) : ℚ) = ((n : ℤ) : ℚ) := by
  have h := fl_eq_self (m := n) (z := 0) hn
  simpa using h

theorem float_branch {d : List Nat} (hf : isFloatFmt (detectAndDecode d).1 = true) :
    d.length % 4 = 0 ∧ 0 < d.length := by
  by_contra h
  rw [show (detectAndDecode d).1 = (detectAndDecode d).1 from rfl] at hf
  simp only [detectAndDecode] at hf
  rw [if_neg h] at hf
  split at hf <;> simp [isFloatFmt] at hf

theorem dd_count_float {d : List Nat} (hf : isFloatFmt (detectAndDecode d).1 = true) :
    (detectAndDecode d).2.1 = d.length / 4 := by
  rw [dd_count, if_pos (float_branch hf).1]

theorem process_rows_float (c : List Nat)
    (hf : isFloatFmt (detectAndDecode (data_bytes c)).1 = true) :
    (process_spectro_file c).rows =
      (((floatWavelengths (axisParams c (detectAndDecode (data_bytes c)).2.1).1
          (axisParams c (detectAndDecode (data_bytes c)).2.1).2
          (detectAndDecode (data_bytes c)).2.1).map Val.f).zip
        (detectAndDecode (data_bytes c)).2.2) := by
  simp only [process_spectro_file]
  rw [if_pos hf]

theorem float_wavelength_at (c : List Nat) (i : Nat)
    (hf : isFloatFmt (detectAndDecode (data_bytes c)).1 = true)
    (hi : i < (process_spectro_file c).rows.length) :
    ((process_spectro_file c).rows.get ⟨i, hi⟩).1 =
      Val.f (vAdd (axisParams c ((data_bytes c).length / 4)).1
        (vMulNat i (stepOf (axisParams c ((data_bytes c).length / 4)).1
          (axisParams c ((data_bytes c).length / 4)).2
          ((data_bytes c).length / 4)))) := by
  have hcnt := dd_count_float hf
  have hrows := process_rows_float c hf
  rw [List.get_eq_getElem]
  simp only [hrows, hcnt, floatWavelengths, List.getElem_zip, List.getElem_map,
    List.getElem_range]

/-- C8: on the float32 path with `N = L/4` samples and the axis endpoints
actually used (metadata or default), the wavelength of sample `i` is
`start + i*step` where `step = (end - start)/(N-1)` when `N > 1` and `0`
when `N <= 1` — the arithmetic of the source expression, on the exact
model. -/
theorem spec2proof_C8 (c : List Nat) (i : Nat)
    (hf : isFloatFmt (process_spectro_file c).data_type = true)
    (hi : i < (process_spectro_file c).rows.length) :
    ((process_spectro_file c).rows.get ⟨i, hi⟩).1 =
      Val.f (vAdd (axisParams c ((data_bytes c).length / 4)).1
        (vMulNat i
          (if 1 < (data_bytes c).length / 4 then
            vDivNat
              (vSub (axisParams c ((data_bytes c).length / 4)).2
                (axisParams c ((data_bytes c).length / 4)).1)
              ((data_bytes c).length / 4 - 1)
          else F32.finite 0))) :=
  float_wavelength_at c i hf hi

/-- C8 witness: a concrete 104-byte buffer of `1` bytes, whose data region
is the 4 bytes past the 100-byte fallback header: one sample, step 0,
wavelength `0 + 0*0`. -/
theorem spec2proof_C8_witness :
    ((process_spectro_file (List.replicate 104 1)).rows.get ⟨0, by decide⟩).1 =
      Val.f (vAdd (axisParams (List.replicate 104 1)
          ((data_bytes (List.replicate 104 1)).length / 4)).1
        (vMulNat 0
          (if 1 < (data_bytes (List.replicate 104 1)).length / 4 then
            vDivNat
              (vSub (axisParams (List.replicate 104 1)
                  ((data_bytes (List.replicate 104 1)).length / 4)).2
                (axisParams (List.replicate 104 1)
                  ((data_bytes (List.replicate 104 1)).length / 4)).1)
              ((data_bytes (List.replicate 104 1)).length / 4 - 1)
          else F32.finite 0))) :=
  spec2proof_C8 (List.replicate 104 1) 0 (by decide) (by decide)

/-- C9 amended: when the marker is present, the metadata read succeeds
with finite endpoints `s`, `e` and the format is float32, the wavelength
sequence is monotone non-strictly: non-decreasing when `s < e`,
non-increasing when `e < s`, constant when `s = e`.  Strictness fails in
general: each operation rounds per IEEE binary64, and rounding can merge
consecutive wavelengths (see the counterexample). -/
theorem spec2proof_C9 (c : List Nat) (p : Nat) (s e : ℚ) (i j : Nat)
    (hm : marker_idx c = some p)
    (hr : readAxis c p = some (F32.finite s, F32.finite e))
    (hf : isFloatFmt (process_spectro_file c).data_type = true)
    (hij : i < j) (hj : j < (process_spectro_file c).rows.length) :
    ∃ a b : ℚ,
      ((process_spectro_file c).rows.get ⟨i, lt_trans hij hj⟩).1 = Val.f (F32.finite a) ∧
      ((process_spectro_file c).rows.get ⟨j, hj⟩).1 = Val.f (F32.finite b) ∧
      (s < e → a ≤ b) ∧ (e < s → b ≤ a) ∧ (s = e → a = b) := by
  have hfd : isFloatFmt (detectAndDecode (data_bytes c)).1 = true := hf
  have hax : axisParams c ((data_bytes c).length / 4) = (F32.finite s, F32.finite e) := by
    unfold axisParams
    simp only [hm, hr]
  have hlen : (process_spectro_file c).rows.length = (data_bytes c).length / 4 := by
    rw [process_rows_length, dd_count_float hfd]
  have hcnt2 : 1 < (data_bytes c).length / 4 := by omega
  have hden : (0 : ℚ) < (((data_bytes c).length / 4 - 1 : ℕ) : ℚ) := by
    have h1 : (1 : ℕ) ≤ (data_bytes c).length / 4 - 1 := by omega
    exact_mod_cast Nat.lt_of_lt_of_le Nat.zero_lt_one h1
  have hwi := float_wavelength_at c i hfd (lt_trans hij hj)
  have hwj := float_wavelength_at c j hfd hj
  rw [hax] at hwi hwj
  simp only [stepOf, if_pos hcnt2, vSub, vAdd, vMulNat, vDivNat, qSub_eq, qDivNat_eq,
    qMulNat_eq, qAdd_eq] at hwi hwj
  refine ⟨_, _, hwi, hwj, ?_, ?_, ?_⟩
  · intro hse
    have hst : (0 : ℚ) <
        fl (fl (e - s) / (((data_bytes c).length / 4 - 1 : ℕ) : ℚ)) :=
      fl_pos (div_pos (fl_pos (by linarith)) hden)
    have hij' : (i : ℚ) ≤ (j : ℚ) := by exact_mod_cast le_of_lt hij
    have hm1 := fl_mono (mul_le_mul_of_nonneg_right hij' (le_of_lt hst))
    exact fl_mono (by linarith)
  · intro hse
    have hst : fl (fl (e - s) / (((data_bytes c).length / 4 - 1 : ℕ) : ℚ)) < 0 :=
      fl_neg_of_neg (div_neg_of_neg_of_pos (fl_neg_of_neg (by linarith)) hden)
    have hij' : (i : ℚ) ≤ (j : ℚ) := by exact_mod_cast le_of_lt hij
    have hm1 := fl_mono (mul_le_mul_of_nonpos_right hij' (le_of_lt hst))
    exact fl_mono (by linarith)
  · intro hse
    subst hse
    rw [sub_self, fl_zero, zero_div, fl_zero, mul_zero, mul_zero]

/-- C9 witness: on the corrected Scenario 1 buffer the metadata read gives
`(400, 700)`, and the two wavelengths are non-decreasing. -/
theorem spec2proof_C9_witness :
    ∃ a b : ℚ,
      ((process_spectro_file scenario1Buf').rows.get ⟨0, by decide⟩).1 =
          Val.f (F32.finite a) ∧
        ((process_spectro_file scenario1Buf').rows.get ⟨1, by decide⟩).1 =
          Val.f (F32.finite b) ∧
        ((400 : ℚ) < 700 → a ≤ b) ∧ ((700 : ℚ) < 400 → b ≤ a) ∧
        ((400 : ℚ) = 700 → a = b) :=
  spec2proof_C9 scenario1Buf' 105 400 700 0 1 (by decide) (by decide) (by decide)
    (by decide) (by decide)

theorem matchAt_append_left {A B pat : List Nat} {i : Nat}
    (h : i + pat.length ≤ A.length) : matchAt (A ++ B) pat i = matchAt A pat i := by
  unfold matchAt
  rw [List.drop_append_eq_append_drop, show i - A.length = 0 by omega, List.drop_zero,
    List.take_append_of_le_length (by rw [List.length_drop]; omega)]

theorem findFrom_min {c pat : List Nat} {s p : Nat} (hm : matchAt c pat p = true)
    (hsp : s ≤ p) (hp : p ≤ c.length)
    (hmin : ∀ i, s ≤ i → i < p → matchAt c pat i = false) :
    findFrom c pat s = some p := by
  unfold findFrom
  have hsplit : List.range (c.length + 1) =
      List.range' 0 p ++ List.range' p (c.length + 1 - p) := by
    calc List.range (c.length + 1) = List.range' 0 (c.length + 1) :=
          List.range_eq_range' _
      _ = List.range' 0 (c.length + 1 - p + p) := by
          rw [show c.length + 1 - p + p = c.length + 1 by omega]
      _ = List.range' 0 p ++ List.range' (0 + p) (c.length + 1 - p) :=
          (List.range'_append_1 0 p (c.length + 1 - p)).symm
      _ = List.range' 0 p ++ List.range' p (c.length + 1 - p) := by rw [Nat.zero_add]
  rw [hsplit, List.filter_append]
  have hleft : (List.range' 0 p).filter
      (fun i => decide (s ≤ i) && matchAt c pat i) = [] := by
    rw [List.filter_eq_nil_iff]
    intro a ha
    have hax : a < p := by
      rw [List.mem_range'_1] at ha
      omega
    by_cases hsa : s ≤ a
    · simp [hmin a hsa hax]
    · simp [hsa]
  rw [hleft, List.nil_append,
    show c.length + 1 - p = (c.length - p) + 1 by omega, List.range'_succ,
    List.filter_cons_of_pos (by simp [hsp, hm]), List.head?_cons]

theorem matchAt_false_of_not_mem {c pat : List Nat} {x : ℕ} (hx : x ∈ pat)
    (hc : x ∉ c) (i : Nat) : matchAt c pat i = false := by
  by_contra h
  rw [Bool.not_eq_false] at h
  unfold matchAt at h
  rw [decide_eq_true_iff] at h
  have hx2 : x ∈ (c.drop i).take pat.length := by
    rw [h]
    exact hx
  exact hc (List.mem_of_mem_drop (List.mem_of_mem_take hx2))

theorem getD_eq_get_rows (l : List (Val × Val)) (n : Nat) (h : n < l.length)
    (d : Val × Val) : l.getD n d = l.get ⟨n, h⟩ := by
  rw [List.getD_eq_getElem?_getD, List.getElem?_eq_getElem h, Option.getD_some,
    List.get_eq_getElem]

theorem fl_300 : fl 300 = 300 := by
  have h := fl_int 300 (by norm_num)
  norm_num at h
  exact h

theorem fl_400 : fl 400 = 400 := by
  have h := fl_int 400 (by norm_num)
  norm_num at h
  exact h

theorem fl_700 : fl 700 = 700 := by
  have h := fl_int 700 (by norm_num)
  norm_num at h
  exact h

theorem step_400_700 : stepOf (F32.finite 400) (F32.finite 700) 2 = F32.finite 300 := by
  unfold stepOf
  rw [if_pos (by norm_num)]
  simp only [vSub, vDivNat, qSub_eq, qDivNat_eq]
  rw [show ((700 : ℚ) - 400) = 300 by norm_num, fl_300,
    show ((300 : ℚ) / ((2 - 1 : ℕ) : ℚ)) = 300 by norm_num, fl_300]

theorem wavelengths_400_700 : floatWavelengths (F32.finite 400) (F32.finite 700) 2 =
    [F32.finite 400, F32.finite 700] := by
  unfold floatWavelengths
  rw [step_400_700, show List.range 2 = [0, 1] from rfl]
  simp only [List.map_cons, List.map_nil]
  have hm0 : vMulNat 0 (F32.finite 300) = F32.finite 0 := by
    simp only [vMulNat, qMulNat_eq]
    rw [show ((0 : ℕ) : ℚ) * 300 = 0 by norm_num, fl_zero]
  have hm1 : vMulNat 1 (F32.finite 300) = F32.finite 300 := by
    simp only [vMulNat, qMulNat_eq]
    rw [show ((1 : ℕ) : ℚ) * 300 = 300 by norm_num, fl_300]
  have ha0 : vAdd (F32.finite 400) (F32.finite 0) = F32.finite 400 := by
    simp only [vAdd, qAdd_eq]
    rw [show (400 : ℚ) + 0 = 400 by norm_num, fl_400]
  have ha1 : vAdd (F32.finite 400) (F32.finite 300) = F32.finite 700 := by
    simp only [vAdd, qAdd_eq]
    rw [show (400 : ℚ) + 300 = 700 by norm_num, fl_700]
  rw [hm0, hm1, ha0, ha1]

/-- C5 counterexample: the Scenario 1 buffer laid out exactly as the claim
states it (metadata after the pattern, filler zero) makes the 16 bytes
after the pattern the data region: the pipeline emits 4 rows, not the 2
rows the claim requires. -/
theorem spec2proof_C5_cex :
    (process_spectro_file scenario1Buf).data_type = DataFormat.f32be ∧
      (process_spectro_file scenario1Buf).rows.length = 4 ∧
      ¬ (process_spectro_file scenario1Buf).rows.length = 2 := by
  refine ⟨by decide, ?_, ?_⟩
  · rw [process_rows_length, dd_count]
    decide
  · rw [process_rows_length, dd_count]
    decide

/-- C5 amended: with the 8 metadata bytes `(400.0, 700.0)` placed
immediately BEFORE the 8-byte pattern — where the code reads them — the
pipeline detects `float32_be`, sets the header boundary just after the
pattern (position 105 + 8 = 113) and outputs exactly the rows
`(400.0, 1.0), (700.0, 2.0)`. -/
theorem spec2proof_C5 :
    (process_spectro_file scenario1Buf').data_type = DataFormat.f32be ∧
      marker_idx scenario1Buf' = some 105 ∧
      header_end scenario1Buf' = 113 ∧
      (process_spectro_file scenario1Buf').rows =
        [(Val.f (F32.finite 400), Val.f (F32.finite 1)),
         (Val.f (F32.finite 700), Val.f (F32.finite 2))] := by
  have hfd : isFloatFmt (detectAndDecode (data_bytes scenario1Buf')).1 = true := by decide
  have hcnt : (detectAndDecode (data_bytes scenario1Buf')).2.1 = 2 := by decide
  have hax1 : (axisParams scenario1Buf' 2).1 = F32.finite 400 := by decide
  have hax2 : (axisParams scenario1Buf' 2).2 = F32.finite 700 := by decide
  have hvals : (detectAndDecode (data_bytes scenario1Buf')).2.2 =
      [Val.f (F32.finite 1), Val.f (F32.finite 2)] := by decide
  refine ⟨by decide, by decide, by decide, ?_⟩
  rw [process_rows_float scenario1Buf' hfd, hcnt, hax1, hax2, hvals,
    wavelengths_400_700]
  rfl

/-- The 16-byte header of the C9 counterexample buffer: the axis metadata
`(1.0, 1.0 + 2^-23)` — the smallest float32 increment above 1 — as
big-endian binary32 (`3F800000`, `3F800001`), followed by the 8-byte
end-of-header pattern. -/
def tiePre : List Nat := [63, 128, 0, 0, 63, 128, 0, 1, 0, 0, 0, 0, 64, 64, 0, 0]

/-- The C9 counterexample buffer: the metadata-plus-pattern header followed
by `4*(2^30 + 1)` data bytes, so the decode yields `N = 2^30 + 1` samples
and the axis step is `(2^-23)/2^30 = 2^-53` — half an ulp of 1.0 in
binary64. -/
def tieBuf : List Nat := tiePre ++ List.replicate (2 ^ 32 + 4) 1

theorem tieBuf_length : tieBuf.length = 2 ^ 32 + 20 := by
  simp only [tieBuf, List.length_append, List.length_replicate]
  norm_num [tiePre]

theorem tieBuf_no46 : (46 : ℕ) ∉ tieBuf := by
  intro h
  rw [show tieBuf = tiePre ++ List.replicate (2 ^ 32 + 4) 1 from rfl, List.mem_append] at h
  rcases h with h | h
  · revert h
    decide
  · rw [List.mem_replicate] at h
    omega

theorem prov_of_wav_none {c : List Nat} (h : findFrom c wavMarker 0 = none) :
    provisional_end c = 0 := by
  unfold provisional_end
  rw [h]

theorem header_end_of_marker {c : List Nat} {p : Nat} (hm : marker_idx c = some p) :
    header_end c = p + 8 := by
  unfold header_end
  rw [hm]

theorem axisParams_of {c : List Nat} {p : Nat} {se : F32 × F32}
    (hm : marker_idx c = some p) (hr : readAxis c p = some se) (cnt : Nat) :
    axisParams c cnt = se := by
  unfold axisParams
  simp only [hm, hr]

theorem tieBuf_prov : provisional_end tieBuf = 0 := by
  apply prov_of_wav_none
  unfold findFrom
  rw [List.head?_eq_none_iff, List.filter_eq_nil_iff]
  intro a ha
  simp [matchAt_false_of_not_mem (show (46 : ℕ) ∈ wavMarker by decide) tieBuf_no46 a]

theorem tieBuf_marker : marker_idx tieBuf = some 8 := by
  unfold marker_idx
  rw [tieBuf_prov]
  apply findFrom_min
  · rw [show tieBuf = tiePre ++ List.replicate (2 ^ 32 + 4) 1 from rfl,
      matchAt_append_left (by decide)]
    decide
  · omega
  · rw [tieBuf_length]
    norm_num
  · intro i hsi hip
    rw [show tieBuf = tiePre ++ List.replicate (2 ^ 32 + 4) 1 from rfl,
      matchAt_append_left (by simp [tiePre, endPattern]; omega)]
    interval_cases i <;> decide

theorem tieBuf_he : header_end tieBuf = 16 :=
  header_end_of_marker tieBuf_marker

theorem tieBuf_data : data_bytes tieBuf = List.replicate (2 ^ 32 + 4) 1 := by
  unfold data_bytes
  rw [tieBuf_he, show tieBuf = tiePre ++ List.replicate (2 ^ 32 + 4) 1 from rfl,
    show (16 : ℕ) = tiePre.length from rfl, List.drop_append_of_le_length le_rfl,
    List.drop_length, List.nil_append]

theorem tieBuf_dlen : (data_bytes tieBuf).length = 2 ^ 32 + 4 := by
  rw [tieBuf_data, List.length_replicate]

theorem dd_float_of {d : List Nat} (h4 : d.length % 4 = 0) (hp : 0 < d.length) :
    isFloatFmt (detectAndDecode d).1 = true := by
  simp only [detectAndDecode]
  rw [if_pos ⟨h4, hp⟩]
  split <;> rfl

theorem data_type_eq (c : List Nat) :
    (process_spectro_file c).data_type = (detectAndDecode (data_bytes c)).1 := rfl

theorem tieBuf_float : isFloatFmt (detectAndDecode (data_bytes tieBuf)).1 = true :=
  dd_float_of (by rw [tieBuf_dlen]; decide) (by rw [tieBuf_dlen]; decide)

theorem decode_one : decodeF32 63 128 0 0 = F32.finite 1 := by decide

theorem decode_one_ulp : decodeF32 63 128 0 1 = F32.finite (1 + 2 ^ (-23 : ℤ)) := by
  have h : decodeF32 63 128 0 1 = F32.finite (Rat.divInt 8388609 8388608) := by decide
  rw [h]
  congr 1
  rw [Rat.divInt_eq_div, zpow_neg,
    show ((2 : ℚ) ^ (23 : ℤ)) = (8388608 : ℚ) by
      rw [show (23 : ℤ) = ((23 : ℕ) : ℤ) from rfl, zpow_natCast]
      norm_num]
  norm_num

theorem tieBuf_getD (j : Nat) (hj : j < 16) : tieBuf.getD j 0 = tiePre.getD j 0 := by
  simp only [tieBuf]
  exact List.getD_append _ _ _ _ (by rw [show tiePre.length = 16 from rfl]; exact hj)

theorem tieBuf_axis :
    readAxis tieBuf 8 = some (F32.finite 1, F32.finite (1 + 2 ^ (-23 : ℤ))) := by
  rw [readAxis_inBounds (by norm_num) (by rw [tieBuf_length]; norm_num)]
  have hax0 : f32At tieBuf 0 = F32.finite 1 := by
    unfold f32At
    rw [tieBuf_getD 0 (by norm_num), tieBuf_getD 1 (by norm_num),
      tieBuf_getD 2 (by norm_num), tieBuf_getD 3 (by norm_num)]
    decide
  have hax4 : f32At tieBuf 4 = F32.finite (1 + 2 ^ (-23 : ℤ)) := by
    unfold f32At
    rw [tieBuf_getD 4 (by norm_num), tieBuf_getD 5 (by norm_num),
      tieBuf_getD 6 (by norm_num), tieBuf_getD 7 (by norm_num)]
    rw [show tiePre.getD 4 0 = 63 from rfl, show tiePre.getD 5 0 = 128 from rfl,
      show tiePre.getD 6 0 = 0 from rfl, show tiePre.getD 7 0 = 1 from rfl]
    exact decode_one_ulp
  rw [show (8 - 8 : ℕ) = 0 from rfl, show (8 - 4 : ℕ) = 4 from rfl, hax0, hax4]

theorem tieBuf_axisParams (cnt : Nat) :
    axisParams tieBuf cnt = (F32.finite 1, F32.finite (1 + 2 ^ (-23 : ℤ))) :=
  axisParams_of tieBuf_marker tieBuf_axis cnt

theorem tieBuf_rows_len : (process_spectro_file tieBuf).rows.length = 2 ^ 30 + 1 := by
  rw [process_rows_length, dd_count_float tieBuf_float, tieBuf_dlen]
  decide

theorem tieBuf_step :
    stepOf (F32.finite 1) (F32.finite (1 + 2 ^ (-23 : ℤ))) (2 ^ 30 + 1) =
      F32.finite (2 ^ (-53 : ℤ)) := by
  have e1 : fl (((1 : ℚ) + 2 ^ (-23 : ℤ)) - 1) = 2 ^ (-23 : ℤ) := by
    rw [show ((1 : ℚ) + 2 ^ (-23 : ℤ)) - 1 = ((1 : ℤ) : ℚ) * 2 ^ (-23 : ℤ) by push_cast; ring]
    rw [fl_eq_self (by norm_num)]
    push_cast
    ring
  have hd : ((2 ^ 30 + 1 - 1 : ℕ) : ℚ) = (2 : ℚ) ^ (30 : ℤ) := by
    rw [show (2 ^ 30 + 1 - 1 : ℕ) = 2 ^ 30 from by norm_num]
    rw [show (30 : ℤ) = ((30 : ℕ) : ℤ) from rfl, zpow_natCast]
    push_cast
    ring
  have e2 : fl ((2 : ℚ) ^ (-23 : ℤ) / ((2 ^ 30 + 1 - 1 : ℕ) : ℚ)) = 2 ^ (-53 : ℤ) := by
    rw [hd, show (2 : ℚ) ^ (-23 : ℤ) / (2 : ℚ) ^ (30 : ℤ) = ((1 : ℤ) : ℚ) * 2 ^ (-53 : ℤ) by
      rw [div_eq_mul_inv, ← zpow_neg, ← zpow_add₀ (two_ne_zero (α := ℚ))]
      push_cast
      ring_nf]
    rw [fl_eq_self (by norm_num)]
    push_cast
    ring
  unfold stepOf
  rw [if_pos (by norm_num)]
  simp only [vSub, vDivNat, qSub_eq, qDivNat_eq, e1, e2]

theorem tieBuf_w0 :
    vAdd (F32.finite 1) (vMulNat 0 (F32.finite (2 ^ (-53 : ℤ)))) = F32.finite 1 := by
  simp only [vMulNat, vAdd, qMulNat_eq, qAdd_eq]
  rw [show ((0 : ℕ) : ℚ) * 2 ^ (-53 : ℤ) = 0 by norm_num, fl_zero]
  rw [show (1 : ℚ) + 0 = ((1 : ℤ) : ℚ) * 2 ^ (0 : ℤ) by push_cast; ring]
  rw [fl_eq_self (by norm_num)]
  rw [show ((1 : ℤ) : ℚ) * 2 ^ (0 : ℤ) = 1 by norm_num]

theorem tieBuf_w1 :
    vAdd (F32.finite 1) (vMulNat 1 (F32.finite (2 ^ (-53 : ℤ)))) = F32.finite 1 := by
  simp only [vMulNat, vAdd, qMulNat_eq, qAdd_eq]
  rw [show ((1 : ℕ) : ℚ) * 2 ^ (-53 : ℤ) = ((1 : ℤ) : ℚ) * 2 ^ (-53 : ℤ) by push_cast; ring]
  rw [fl_eq_self (by norm_num)]
  rw [show (1 : ℚ) + ((1 : ℤ) : ℚ) * 2 ^ (-53 : ℤ) = 1 + 2 ^ (-53 : ℤ) by push_cast; ring]
  rw [fl_tie]

/-- C9 counterexample: on `tieBuf` the metadata read succeeds with
`startWavelength = 1.0 < endWavelength = 1.0 + 2^-23` and the format is
float32, yet wavelengths 0 and 1 are both exactly `1.0`: the step
`2^-53` is half an ulp of 1.0 in binary64, `1.0 + 2^-53` rounds back to
`1.0` (ties to even), and the produced wavelength sequence is not
strictly increasing — the claim fails at this input. -/
theorem spec2proof_C9_cex :
    marker_idx tieBuf = some 8 ∧
      readAxis tieBuf 8 = some (F32.finite 1, F32.finite (1 + 2 ^ (-23 : ℤ))) ∧
      (1 : ℚ) < 1 + 2 ^ (-23 : ℤ) ∧
      isFloatFmt (process_spectro_file tieBuf).data_type = true ∧
      (process_spectro_file tieBuf).rows.length = 2 ^ 30 + 1 ∧
      ((process_spectro_file tieBuf).rows.getD 0 (Val.n 0, Val.n 0)).1 =
        Val.f (F32.finite 1) ∧
      ((process_spectro_file tieBuf).rows.getD 1 (Val.n 0, Val.n 0)).1 =
        Val.f (F32.finite 1) := by
  have hf : isFloatFmt (process_spectro_file tieBuf).data_type = true := by
    rw [data_type_eq]
    exact tieBuf_float
  have hlen := tieBuf_rows_len
  have h0 : 0 < (process_spectro_file tieBuf).rows.length := by
    rw [hlen]
    norm_num
  have h1 : 1 < (process_spectro_file tieBuf).rows.length := by
    rw [hlen]
    norm_num
  have hc4 : (data_bytes tieBuf).length / 4 = 2 ^ 30 + 1 := by
    rw [tieBuf_dlen]
    decide
  have hw0 := float_wavelength_at tieBuf 0 tieBuf_float h0
  have hw1 := float_wavelength_at tieBuf 1 tieBuf_float h1
  rw [hc4, tieBuf_axisParams] at hw0 hw1
  dsimp only at hw0 hw1
  rw [tieBuf_step, tieBuf_w0] at hw0
  rw [tieBuf_step, tieBuf_w1] at hw1
  refine ⟨tieBuf_marker, tieBuf_axis, ?_, hf, hlen, ?_, ?_⟩
  · have hp : (0 : ℚ) < 2 ^ (-23 : ℤ) := by positivity
    linarith
  · rw [getD_eq_get_rows (process_spectro_file tieBuf).rows 0 h0 (Val.n 0, Val.n 0)]
    exact hw0
  · rw [getD_eq_get_rows (process_spectro_file tieBuf).rows 1 h1 (Val.n 0, Val.n 0)]
    exact hw1
